import Mathlib

/-!
Verification development for the gerbmerge panelization search core
(`tilesearch.py`, the search coordination part of `gerbmerge.py`).

The `tiling` module (class `Tiling`, functions `minDimension`,
`maxUtilization`) is not part of the sources at hand; only its callers in
`tilesearch.py` and `gerbmerge.py` are.  The search code is therefore
embedded parametrically over the operations it invokes on a `Tiling`
object, collected in the `TilingOps` structure below, and a concrete
instance (`specOps`) is modelled from the specification's description of
the Tiling component.

Machine reals (Python floats holding board dimensions in inches) are
modelled as integers; none of the properties below depends on fractional
values.  Python's `float("inf")` initial best score is modelled as the
`⊤` element of `WithTop Int`.
-/

/-- A 2D anchor point `(x, y)`. -/
abbrev Point : Type := Int × Int

/-- One entry of the job list handed to the searches: the 4-tuple
`(Xdim, Ydim, job, rjob)` of `tilesearch.py`.  The job handles are opaque;
they are modelled as natural numbers. -/
structure Job where
  Xdim : Int
  Ydim : Int
  job : Nat
  rjob : Nat
deriving DecidableEq, Repr

/-- The operations the search code invokes on the (externally provided)
`Tiling` data structure, together with the module-level function
`tiling.minDimension`.  `tilesearch.py` is written against this interface;
the concrete instance `specOps` below is modelled from the spec. -/
structure TilingOps (T : Type) where
  validAddPoints : T → Int → Int → List Point
  addJob : T → Point → Int → Int → Nat → T
  removeInlets : T → Int → T
  area : T → Int
  corners : T → Int
  minDimension : List Job → Int

/-- Mutable search state of `ExhaustiveSearch` relevant to `_run`:
`bestTiling`, `bestScore` (initially `float("inf")`, hence `WithTop Int`)
and the `permutations` counter.  Cloning of tilings is implicit: tilings
are immutable values here, so `clone()` is the identity. -/
structure ESState (T : Type) where
  bestTiling : Option T
  bestScore : WithTop Int
  permutations : Nat
deriving DecidableEq

/-- The initial `ExhaustiveSearch` state set up in `TileSearch.__init__` /
`ExhaustiveSearch.__init__`: no tiling yet, infinite score, zero
permutations. -/
def initES (T : Type) : ESState T := ⟨none, ⊤, 0⟩

/-- `(2 ** len(jobs)) * factorial(len(jobs))`, the value stored in
`self.possiblePermutations` by `ExhaustiveSearch.__init__`. -/
def possiblePermutations (jobs : List Job) : Nat :=
  2 ^ jobs.length * Nat.factorial jobs.length

/-- The update performed on the pair `(bestTiling, bestScore)` at a leaf of
`ExhaustiveSearch._run` (lines 242-247 of `tilesearch.py`):
`score < bestScore or (score == bestScore and tiles.corners() <
bestTiling.corners())`, with Python's short-circuit `or`/`and`.  When the
tie branch is reached with `bestTiling = None`, Python would raise
(`None` has no `corners`); that branch is modelled as a no-op and proved
unreachable (claim C10). -/
def pairStep {T : Type} (ops : TilingOps T) (p : Option T × WithTop Int) (tiles : T) :
    Option T × WithTop Int :=
  let score : Int := ops.area tiles
  if (score : WithTop Int) < p.2 then (some tiles, (score : WithTop Int))
  else if (score : WithTop Int) = p.2 then
    match p.1 with
    | some bt => if ops.corners tiles < ops.corners bt then (some tiles, (score : WithTop Int)) else p
    | none => p
  else p

/-- The leaf body of `_run` for `Jobs == []`: update `(bestTiling,
bestScore)` via `pairStep`, then `if firstAddPoint: self.permutations += 1`. -/
def leafVisit {T : Type} (ops : TilingOps T) (tiles : T) (first : Bool) (s : ESState T) :
    ESState T :=
  let p := pairStep ops (s.bestTiling, s.bestScore) tiles
  let s1 : ESState T := ⟨p.1, p.2, s.permutations⟩
  if first then { s1 with permutations := s1.permutations + 1 } else s1

/-- `selections [a, b, c] = [(a, [b,c]), (b, [a,c]), (c, [a,b])]`: for each
`job_ix in range(len(Jobs))`, the pair of `Jobs[job_ix]` and
`remaining_jobs = Jobs[:job_ix] + Jobs[job_ix+1:]`. -/
def selections : List Job → List (Job × List Job)
  | [] => []
  | j :: rest => (j, rest) :: (selections rest).map (fun p => (p.1, j :: p.2))

/-- One `addpoints` loop of `_run` (either the non-rotated or the rotated
variant): if the list is empty, the `elif firstAddPoint: self.permutations
+= 2 ** len(remaining_jobs)` pruning correction; otherwise one recursive
call per add-point, the `firstAddPoint` flag forwarded as
`firstAddPoint and ix == addpoints[0]`.  The recursive call (on the
remaining job list) is abstracted as `recur`. -/
def anchorPass {T : Type} (recur : T → Bool → ESState T → ESState T)
    (place : Point → T) (first : Bool) (pruneCount : Nat)
    (ap : List Point) (s : ESState T) : ESState T :=
  match ap with
  | [] => if first then { s with permutations := s.permutations + 2 ^ pruneCount } else s
  | hd :: _ => ap.foldl (fun st p => recur (place p) (first && decide (p = hd)) st) s

/-- The body of `_run` for one `job_ix`: build `addpoints1` for the
non-rotated job, `addpoints2` for the rotated job (empty when the job is
square, the square-job optimization), and run both anchor passes. -/
def selPass {T : Type} (ops : TilingOps T) (xs ys : Int)
    (recur : List Job → T → Bool → ESState T → ESState T)
    (tiles2 : T) (first : Bool) (s : ESState T) (sel : Job × List Job) : ESState T :=
  let ap1 := ops.validAddPoints tiles2 (sel.1.Xdim + xs) (sel.1.Ydim + ys)
  let ap2 := if sel.1.Xdim ≠ sel.1.Ydim
    then ops.validAddPoints tiles2 (sel.1.Ydim + xs) (sel.1.Xdim + ys) else []
  let s1 := anchorPass (fun t fl st => recur sel.2 t fl st)
    (fun p => ops.addJob tiles2 p (sel.1.Xdim + xs) (sel.1.Ydim + ys) sel.1.job)
    first sel.2.length ap1 s
  anchorPass (fun t fl st => recur sel.2 t fl st)
    (fun p => ops.addJob tiles2 p (sel.1.Ydim + xs) (sel.1.Xdim + ys) sel.1.rjob)
    first sel.2.length ap2 s1

/-- `ExhaustiveSearch._run(Jobs, tiles, firstAddPoint, printStats)` for the
runs considered by the functional-correctness claims: `searchTimeout = 0`
or `printStats = False`, so the throttled status block (lines 309-315)
never touches the search state (it only updates `lastCheckTime` and
prints; the timed embedding `esRunT` below models it).  The `if not
tiles:` guard is dead code on these paths: `run()` always starts from a
constructed tiling and recursive calls receive cloned tilings.

Recursion is structural on `fuel`, the recursion depth; every recursive
call is on `remaining_jobs`, one shorter than `Jobs`, and the wrapper
`esRun` passes `Jobs.length`, so the `fuel = 0` fallback for a non-empty
job list is never reached on calls made through `esRun`. -/
def esRunF {T : Type} (ops : TilingOps T) (xs ys : Int) :
    Nat → List Job → T → Bool → ESState T → ESState T
  | 0, Jobs, tiles, first, s =>
      match Jobs with
      | [] => leafVisit ops tiles first s
      | _ :: _ => s
  | fuel + 1, Jobs, tiles, first, s =>
      match Jobs with
      | [] => leafVisit ops tiles first s
      | _ :: _ =>
        let tiles2 := ops.removeInlets tiles (ops.minDimension Jobs)
        (selections Jobs).foldl
          (selPass ops xs ys (fun rj t fl st => esRunF ops xs ys fuel rj t fl st) tiles2 first) s

/-- `ExhaustiveSearch.run()`: `self._run(self.jobs, self.baseTiling, True)`,
starting from the freshly initialized search state. -/
def esRun {T : Type} (ops : TilingOps T) (xs ys : Int) (Jobs : List Job) (tiles : T) :
    ESState T :=
  esRunF ops xs ys Jobs.length Jobs tiles true (initES T)

section SpecTiling

/-- A placed rectangle: anchor `(x, y)`, spacing-inflated width and
height (the dimensions handed to `validAddPoints`/`addJob` already include
the spacing, cf. `Xdim + self.xspacing` in `tilesearch.py`), and the job
handle recorded for canonicalization. -/
structure Rect where
  x : Int
  y : Int
  w : Int
  h : Int
  handle : Nat
deriving DecidableEq, Repr

/-- Modelled from the spec: the Tiling data structure owns the panel
bounds and the list of already-placed rectangles, in insertion order. -/
structure STiling where
  px : Int
  py : Int
  rects : List Rect
deriving DecidableEq, Repr

/-- Two axis-aligned open rectangles intersect. -/
def rectOverlap (a b : Rect) : Bool :=
  decide (a.x < b.x + b.w) && decide (b.x < a.x + a.w) &&
  decide (a.y < b.y + b.h) && decide (b.y < a.y + a.h)

/-- Modelled from the spec (`tiling.py` is not among the sources):
`validAddPoints(width, height)` returns every anchor at which a `width ×
height` rectangle fits.  Candidate anchors are the panel's lower-left
corner and the upper-right corner of every placed rectangle; a candidate
is valid when the rectangle stays inside `[0, px] × [0, py]` and overlaps
no placed rectangle.  The spec calls the result a *set* of anchor points,
so duplicate candidates are removed. -/
def specValidAddPoints (t : STiling) (w h : Int) : List Point :=
  (((0, 0) : Point) :: t.rects.map (fun r => (r.x + r.w, r.y + r.h))).dedup.filter
    (fun p => decide (p.1 + w ≤ t.px) && decide (p.2 + h ≤ t.py) &&
      t.rects.all (fun r => !rectOverlap ⟨p.1, p.2, w, h, 0⟩ r))

/-- Modelled from the spec: `addJob` records the rectangle at the anchor,
keeping insertion order. -/
def specAddJob (t : STiling) (p : Point) (w h : Int) (handle : Nat) : STiling :=
  { t with rects := t.rects ++ [⟨p.1, p.2, w, h, handle⟩] }

/-- Modelled from the spec: `removeInlets` is a pruning optimization that
may only discard enclosed gaps too small for any remaining job ("not a
correctness requirement"); the trivial sound model performs no pruning. -/
def specRemoveInlets (t : STiling) (_minDim : Int) : STiling := t

/-- Modelled from the spec: `area()` is the bounding-box area of all
placed rectangles, `0` for an empty tiling. -/
def specArea (t : STiling) : Int :=
  match t.rects with
  | [] => 0
  | r0 :: rs =>
      let loX := rs.foldl (fun a r => min a r.x) r0.x
      let loY := rs.foldl (fun a r => min a r.y) r0.y
      let hiX := rs.foldl (fun a r => max a (r.x + r.w)) (r0.x + r0.w)
      let hiY := rs.foldl (fun a r => max a (r.y + r.h)) (r0.y + r0.h)
      (hiX - loX) * (hiY - loY)

/-- Modelled from the spec: `corners()` counts distinct boundary corners
of the occupied region.  The spec leaves the exact notion open (design
note: "implementers should define it precisely"); here it is the number
of distinct corner points of the placed rectangles, a definite, stable
tie-break function with the intended behaviour on the spec's tie-break
scenario (a single rectangle scores 4, a two-rectangle L/strip scores
more). -/
def specCorners (t : STiling) : Int :=
  ((t.rects.map (fun r =>
      [((r.x, r.y) : Point), (r.x + r.w, r.y), (r.x, r.y + r.h), (r.x + r.w, r.y + r.h)])).flatten).dedup.length

/-- Modelled from the spec: `tiling.minDimension(jobs)` is the minimum
dimension over the given jobs ("the minimum job dimension"), i.e. the
least of all `Xdim`/`Ydim` values. -/
def specMinDimension (jobs : List Job) : Int :=
  match jobs with
  | [] => 0
  | j :: rest => rest.foldl (fun a k => min a (min k.Xdim k.Ydim)) (min j.Xdim j.Ydim)

/-- The spec-modelled Tiling operations bundle. -/
def specOps : TilingOps STiling :=
  ⟨specValidAddPoints, specAddJob, specRemoveInlets, specArea, specCorners, specMinDimension⟩

/-- An empty tiling for a `px × py` panel. -/
def emptyT (px py : Int) : STiling := ⟨px, py, []⟩

end SpecTiling

/-! ## Reachable leaf tilings and the pruning deficit

Proof-side companions of `esRunF`, following the same recursion and visit
order: `leafTilingsF` collects every complete tiling reached at a leaf of
`_run` ("tilings reachable by the search's placement rules"), and
`pruneDeficitF` sums, over the pruning corrections applied along the
`firstAddPoint` chain, how far each `2 ** len(remaining_jobs)` correction
falls short of the `2 ** m * m!` permutations the pruned subtree actually
contained. -/

/-- Leaf tilings produced under one anchor list. -/
def anchorLeaves {T : Type} (recurL : T → List T) (place : Point → T) (ap : List Point) :
    List T :=
  (ap.map (fun p => recurL (place p))).flatten

/-- Leaf tilings produced by one `job_ix` iteration of `_run`. -/
def selLeaves {T : Type} (ops : TilingOps T) (xs ys : Int)
    (recurL : List Job → T → List T) (tiles2 : T) (sel : Job × List Job) : List T :=
  let ap1 := ops.validAddPoints tiles2 (sel.1.Xdim + xs) (sel.1.Ydim + ys)
  let ap2 := if sel.1.Xdim ≠ sel.1.Ydim
    then ops.validAddPoints tiles2 (sel.1.Ydim + xs) (sel.1.Xdim + ys) else []
  anchorLeaves (fun t => recurL sel.2 t)
    (fun p => ops.addJob tiles2 p (sel.1.Xdim + xs) (sel.1.Ydim + ys) sel.1.job) ap1 ++
  anchorLeaves (fun t => recurL sel.2 t)
    (fun p => ops.addJob tiles2 p (sel.1.Ydim + xs) (sel.1.Xdim + ys) sel.1.rjob) ap2

/-- All complete tilings visited at the leaves of `_run`, in visit order. -/
def leafTilingsF {T : Type} (ops : TilingOps T) (xs ys : Int) :
    Nat → List Job → T → List T
  | 0, Jobs, tiles =>
      match Jobs with
      | [] => [tiles]
      | _ :: _ => []
  | fuel + 1, Jobs, tiles =>
      match Jobs with
      | [] => [tiles]
      | _ :: _ =>
        let tiles2 := ops.removeInlets tiles (ops.minDimension Jobs)
        ((selections Jobs).map
          (selLeaves ops xs ys (fun rj t => leafTilingsF ops xs ys fuel rj t) tiles2)).flatten

/-- The tilings reachable by a completed `ExhaustiveSearch` run. -/
def leafTilings {T : Type} (ops : TilingOps T) (xs ys : Int) (Jobs : List Job) (tiles : T) :
    List T :=
  leafTilingsF ops xs ys Jobs.length Jobs tiles

/-- Deficit contributed by one anchor list along the `firstAddPoint`
chain: a pruned branch with `m` remaining jobs adds `2 ^ m` to the counter
but skips a subtree of `2 ^ m * m!` permutations, so it falls short by
`2 ^ m * m! - 2 ^ m`; a non-empty anchor list continues the chain through
its first anchor. -/
def anchorDeficit {T : Type} (recurD : T → Nat) (place : Point → T) (m : Nat)
    (ap : List Point) : Nat :=
  match ap with
  | [] => 2 ^ m * Nat.factorial m - 2 ^ m
  | hd :: _ => recurD (place hd)

/-- Deficit contributed by one `job_ix` iteration of `_run`. -/
def selDeficit {T : Type} (ops : TilingOps T) (xs ys : Int)
    (recurD : List Job → T → Nat) (tiles2 : T) (sel : Job × List Job) : Nat :=
  let ap1 := ops.validAddPoints tiles2 (sel.1.Xdim + xs) (sel.1.Ydim + ys)
  let ap2 := if sel.1.Xdim ≠ sel.1.Ydim
    then ops.validAddPoints tiles2 (sel.1.Ydim + xs) (sel.1.Xdim + ys) else []
  anchorDeficit (fun t => recurD sel.2 t)
    (fun p => ops.addJob tiles2 p (sel.1.Xdim + xs) (sel.1.Ydim + ys) sel.1.job) sel.2.length ap1 +
  anchorDeficit (fun t => recurD sel.2 t)
    (fun p => ops.addJob tiles2 p (sel.1.Ydim + xs) (sel.1.Xdim + ys) sel.1.rjob) sel.2.length ap2

/-- Total shortfall of the `permutations` counter against
`possiblePermutations` accumulated by a completed run. -/
def pruneDeficitF {T : Type} (ops : TilingOps T) (xs ys : Int) :
    Nat → List Job → T → Nat
  | 0, _, _ => 0
  | fuel + 1, Jobs, tiles =>
      match Jobs with
      | [] => 0
      | _ :: _ =>
        let tiles2 := ops.removeInlets tiles (ops.minDimension Jobs)
        ((selections Jobs).map
          (selDeficit ops xs ys (fun rj t => pruneDeficitF ops xs ys fuel rj t) tiles2)).sum

/-- The pruning deficit of a completed `ExhaustiveSearch.run()`. -/
def pruneDeficit {T : Type} (ops : TilingOps T) (xs ys : Int) (Jobs : List Job) (tiles : T) :
    Nat :=
  pruneDeficitF ops xs ys Jobs.length Jobs tiles

/-! ## RandomSearch (`RandomSearch.run`, one trial)

Randomness is made explicit: the sampled job order `joborder`, the
orientation coin of each placement (`r.choice([0, 1])`, `true` = the
truthy `1`, i.e. the non-rotated branch) and the index of the anchor
picked by `r.choice(addpoints)` are inputs. -/

/-- Worker state of `RandomSearch` across trials: `bestTiling`,
`bestScore` and the `placements` counter from `TileSearch.__init__`. -/
structure RSState (T : Type) where
  bestTiling : Option T
  bestScore : WithTop Int
  placements : Nat
deriving DecidableEq

/-- The initial worker state. -/
def initRS (T : Type) : RSState T := ⟨none, ⊤, 0⟩

/-- A fallback job for the (never exercised) out-of-range index lookup
`self.jobs[ix]`; `joborder` is a permutation of `range(N)`, so every index
is in range. -/
def dummyJob : Job := ⟨0, 0, 0, 0⟩

/-- The placement loop of one `RandomSearch` trial (lines 107-125 of
`tilesearch.py`): for each index of `joborder[:M]`, call
`removeInlets(minInletSize)` — with `minInletSize` computed once, before
the loop, over the whole job list — flip the orientation coin, compute the
valid anchors for that orientation, and either `break` (no anchors:
result `none`) or place the job at a randomly chosen anchor.  `coins` and
`picks` supply the random draws, one per placement. -/
def placeLoop {T : Type} (ops : TilingOps T) (xs ys : Int) (jobs : List Job)
    (minInletSize : Int) :
    List Nat → List Bool → List Nat → T → Option T
  | [], _, _, t => some t
  | ix :: rest, coins, picks, t =>
      let jb := jobs.getD ix dummyJob
      let t1 := ops.removeInlets t minInletSize
      if coins.headD true then
        let ap := ops.validAddPoints t1 (jb.Xdim + xs) (jb.Ydim + ys)
        match ap with
        | [] => none
        | _ :: _ =>
          let pt := ap.getD (picks.headD 0 % ap.length) (0, 0)
          placeLoop ops xs ys jobs minInletSize rest coins.tail picks.tail
            (ops.addJob t1 pt (jb.Xdim + xs) (jb.Ydim + ys) jb.job)
      else
        let ap := ops.validAddPoints t1 (jb.Ydim + xs) (jb.Xdim + ys)
        match ap with
        | [] => none
        | _ :: _ =>
          let pt := ap.getD (picks.headD 0 % ap.length) (0, 0)
          placeLoop ops xs ys jobs minInletSize rest coins.tail picks.tail
            (ops.addJob t1 pt (jb.Ydim + xs) (jb.Xdim + ys) jb.rjob)

/-- The random draws of one trial. -/
structure TrialDraws where
  joborder : List Nat
  coins : List Bool
  picks : List Nat
deriving DecidableEq

/-- One iteration of the `while 1:` trial loop of `RandomSearch.run`
(lines 102-142): clone the base tiling, place the first
`M = max(N - exhaustiveSearchJobs, 0)` jobs of the drawn order at random
(`placeLoop`); on a `break` the trial is abandoned and only `placements`
is incremented.  Otherwise, if a tail remains (`if N - M:`), run an
`ExhaustiveSearch` seeded with the current tiling (timeout `0`,
`printStats=False`) on the remaining jobs and adopt its result when
`finalSearch.bestScore < self.bestScore`.  Finally `self.placements += 1`.
-/
def workerTrial {T : Type} (ops : TilingOps T) (xs ys : Int) (jobs : List Job)
    (exhaustiveSearchJobs : Nat) (base : T) (d : TrialDraws) (s : RSState T) : RSState T :=
  let M := jobs.length - exhaustiveSearchJobs
  let minInletSize := ops.minDimension jobs
  match placeLoop ops xs ys jobs minInletSize (d.joborder.take M) d.coins d.picks base with
  | none => { s with placements := s.placements + 1 }
  | some t =>
      let s1 :=
        if jobs.length - M ≠ 0 then
          let remainingJobs := (d.joborder.drop M).map (fun ix => jobs.getD ix dummyJob)
          let finalSearch := esRun ops xs ys remainingJobs t
          if finalSearch.bestScore < s.bestScore then
            { s with bestScore := finalSearch.bestScore, bestTiling := finalSearch.bestTiling }
          else s
        else s
      { s1 with placements := s1.placements + 1 }

/-- A sequence of trials of one worker. -/
def runTrials {T : Type} (ops : TilingOps T) (xs ys : Int) (jobs : List Job)
    (exhaustiveSearchJobs : Nat) (base : T) (ds : List TrialDraws) (s : RSState T) :
    RSState T :=
  ds.foldl (fun st d => workerTrial ops xs ys jobs exhaustiveSearchJobs base d st) s

/-! ## Coordinator merge (`tile_search_random`, `gerbmerge.py`) -/

/-- Coordinator state inside the drain loop of `tile_search_random`:
global `bestScore` (initially `float("inf")`), global `bestTiling`
(initially `None`), the accumulated `placementsTried`, and the per-drain
`foundBetter` flag. -/
structure CoordState (T : Type) where
  bestScore : WithTop Int
  bestTiling : Option T
  placementsTried : Nat
  foundBetter : Bool
deriving DecidableEq

/-- Processing of one drained queue message `newResult = (count, tiling)`
(lines 630-634 of `gerbmerge.py`): always accumulate the attempt count;
update the global best exactly when the message carries a tiling
(`newResult[1]` truthy; a `Tiling` object has no falsy instances) whose
`area()` is strictly below the global `bestScore`. -/
def coordMerge {T : Type} (ops : TilingOps T) (s : CoordState T) (msg : Nat × Option T) :
    CoordState T :=
  let s1 := { s with placementsTried := s.placementsTried + msg.1 }
  match msg.2 with
  | some t =>
      if (ops.area t : WithTop Int) < s1.bestScore then
        { s1 with bestTiling := some t, foundBetter := true,
                  bestScore := (ops.area t : WithTop Int) }
      else s1
  | none => s1

/-! ## Observing `removeInlets` arguments

To settle which threshold `RandomSearch` hands to `removeInlets`, the
tiling is paired with a ghost log of every argument `removeInlets`
received; all other operations ignore the log. -/

/-- Lift tiling operations to a tiling paired with the `removeInlets`
argument log. -/
def loggedOps {T : Type} (ops : TilingOps T) : TilingOps (T × List Int) :=
  { validAddPoints := fun t w h => ops.validAddPoints t.1 w h
    addJob := fun t p w h handle => (ops.addJob t.1 p w h handle, t.2)
    removeInlets := fun t m => (ops.removeInlets t.1 m, t.2 ++ [m])
    area := fun t => ops.area t.1
    corners := fun t => ops.corners t.1
    minDimension := ops.minDimension }

/-! ## Timed embedding of `ExhaustiveSearch._run`

For the timeout claim, `time.time()` is an oracle: `clock n` is the value
returned by the `n`-th call, counted by `callIdx`.  The instance
attributes `startTime`, `syncPeriod` and `searchTimeout` are parameters;
`lastCheckTime` lives in the state.  The throttled block at the bottom of
each `job_ix` iteration (lines 308-315 of `tilesearch.py`) is modelled
exactly: the `return` leaves only the current recursion frame (remaining
`job_ix` iterations of that frame are skipped; ancestors continue), and
the ghost flag `timedOut` records that the timeout branch fired. -/

/-- Timing parameters of a `TileSearch`. -/
structure TimedCfg where
  clock : Nat → Int
  startTime : Int
  syncPeriod : Int
  searchTimeout : Int
  printStats : Bool

/-- Search state of the timed embedding; `timedOut` is a ghost flag, set
when the `return` on line 315 executes. -/
structure TSState (T : Type) where
  bestTiling : Option T
  bestScore : WithTop Int
  permutations : Nat
  lastCheckTime : Int
  callIdx : Nat
  timedOut : Bool

/-- The initial timed state (`lastCheckTime = 0` from
`TileSearch.__init__`). -/
def initTS (T : Type) : TSState T := ⟨none, ⊤, 0, 0, 0, false⟩

/-- One `time.time()` call. -/
def readClock {T : Type} (cfg : TimedCfg) (s : TSState T) : Int × TSState T :=
  (cfg.clock s.callIdx, { s with callIdx := s.callIdx + 1 })

/-- The throttled status/timeout block at the bottom of one `job_ix`
iteration: when `printStats` and a sync period elapsed, update
`lastCheckTime` (to a fresh reading) and, when a timeout is configured and
exceeded, leave the current frame (second component `true`). -/
def timeCheck {T : Type} (cfg : TimedCfg) (s : TSState T) : TSState T × Bool :=
  let (r1, s) := readClock cfg s
  if cfg.printStats && decide (r1 > s.lastCheckTime + cfg.syncPeriod) then
    let (r2, s) := readClock cfg s
    let s := { s with lastCheckTime := r2 }
    if cfg.searchTimeout > 0 then
      let (r3, s) := readClock cfg s
      if r3 - cfg.startTime > cfg.searchTimeout then
        ({ s with timedOut := true }, true)
      else (s, false)
    else (s, false)
  else (s, false)

/-- Leaf update of the timed embedding (same `pairStep` comparison). -/
def leafVisitT {T : Type} (ops : TilingOps T) (tiles : T) (first : Bool) (s : TSState T) :
    TSState T :=
  let p := pairStep ops (s.bestTiling, s.bestScore) tiles
  let s1 := { s with bestTiling := p.1, bestScore := p.2 }
  if first then { s1 with permutations := s1.permutations + 1 } else s1

/-- Anchor pass of the timed embedding. -/
def anchorPassT {T : Type} (recur : T → Bool → TSState T → TSState T)
    (place : Point → T) (first : Bool) (pruneCount : Nat)
    (ap : List Point) (s : TSState T) : TSState T :=
  match ap with
  | [] => if first then { s with permutations := s.permutations + 2 ^ pruneCount } else s
  | hd :: _ => ap.foldl (fun st p => recur (place p) (first && decide (p = hd)) st) s

/-- One `job_ix` iteration of the timed embedding, including the throttled
block; the second component reports whether the `return` fired. -/
def selPassT {T : Type} (ops : TilingOps T) (xs ys : Int) (cfg : TimedCfg)
    (recur : List Job → T → Bool → TSState T → TSState T)
    (tiles2 : T) (first : Bool) (s : TSState T) (sel : Job × List Job) :
    TSState T × Bool :=
  let ap1 := ops.validAddPoints tiles2 (sel.1.Xdim + xs) (sel.1.Ydim + ys)
  let ap2 := if sel.1.Xdim ≠ sel.1.Ydim
    then ops.validAddPoints tiles2 (sel.1.Ydim + xs) (sel.1.Xdim + ys) else []
  let s1 := anchorPassT (fun t fl st => recur sel.2 t fl st)
    (fun p => ops.addJob tiles2 p (sel.1.Xdim + xs) (sel.1.Ydim + ys) sel.1.job)
    first sel.2.length ap1 s
  let s2 := anchorPassT (fun t fl st => recur sel.2 t fl st)
    (fun p => ops.addJob tiles2 p (sel.1.Ydim + xs) (sel.1.Xdim + ys) sel.1.rjob)
    first sel.2.length ap2 s1
  timeCheck cfg s2

/-- `ExhaustiveSearch._run` with the clock oracle.  The `for job_ix`
loop carries a break flag: once the `return` fires, the remaining
iterations of this frame are skipped and control returns to the caller
frame, which simply continues. -/
def esRunTF {T : Type} (ops : TilingOps T) (xs ys : Int) (cfg : TimedCfg) :
    Nat → List Job → T → Bool → TSState T → TSState T
  | 0, Jobs, tiles, first, s =>
      match Jobs with
      | [] => leafVisitT ops tiles first s
      | _ :: _ => s
  | fuel + 1, Jobs, tiles, first, s =>
      match Jobs with
      | [] => leafVisitT ops tiles first s
      | _ :: _ =>
        let tiles2 := ops.removeInlets tiles (ops.minDimension Jobs)
        ((selections Jobs).foldl
          (fun acc sel =>
            if acc.2 then acc
            else selPassT ops xs ys cfg
              (fun rj t fl st => esRunTF ops xs ys cfg fuel rj t fl st) tiles2 first acc.1 sel)
          (s, false)).1

/-- `ExhaustiveSearch.run()` of the timed embedding. -/
def esRunT {T : Type} (ops : TilingOps T) (xs ys : Int) (cfg : TimedCfg)
    (Jobs : List Job) (tiles : T) : TSState T :=
  esRunTF ops xs ys cfg Jobs.length Jobs tiles true (initTS T)

/-! ## The coordinator's return path (`tile_search_random`, lines 646-655)

On `KeyboardInterrupt` the coordinator terminates the workers, prints,
and falls through to the final statistics line

`"Computed {:d} placements in {:d} seconds (...)".format(placementsTried,
computeTime, ...)`

where `computeTime = time.time() - startTime` is a Python `float`.
`str.format` with presentation type `d` raises `ValueError` on a float
operand; formatting is modelled by `formatD`. -/

/-- A Python number: `int` or `float` (the float's value is irrelevant to
the formatting behaviour; it is carried as a rational). -/
inductive PyNum where
  | int : Int → PyNum
  | float : Rat → PyNum
deriving DecidableEq

/-- `"{:d}".format(v)`: renders an `int`, raises `ValueError` for a
`float` ("Unknown format code 'd' ..."). -/
def formatD : PyNum → Except String String
  | PyNum.int n => Except.ok (toString n)
  | PyNum.float _ => Except.error "ValueError: unknown format code d for float"

/-- The tail of `tile_search_random` after the `except KeyboardInterrupt`
handler has terminated the workers (lines 651-655): format the final
statistics line — `placementsTried` with `{:d}` (an `int`), then
`computeTime` with `{:d}` (a `float`) — and return `bestTiling`. -/
def tileSearchRandomFinish {T : Type} (placementsTried : Nat) (elapsed : Rat)
    (bestTiling : Option T) : Except String (Option T) := do
  _ ← formatD (PyNum.int placementsTried)
  _ ← formatD (PyNum.float elapsed)
  pure bestTiling

/-! ## Proof-side definitions -/

/-- The `(bestTiling, bestScore)` projection of a search state. -/
def bp {T : Type} (s : ESState T) : Option T × WithTop Int := (s.bestTiling, s.bestScore)

/-- The invariant tying `bestTiling` to `bestScore`: while no tiling has
been recorded, the best score is still `float("inf")`. -/
def scoreInv {T : Type} (s : ESState T) : Prop := s.bestTiling = none → s.bestScore = ⊤

/-- Invariant of the fold of `pairStep` over the list of leaf tilings
processed so far: either nothing was processed yet, or the pair holds a
processed tiling of minimal area whose corner count is minimal among the
processed tilings of equal area. -/
def bpInv {T : Type} (ops : TilingOps T) (processed : List T) (p : Option T × WithTop Int) :
    Prop :=
  (p.1 = none ∧ p.2 = ⊤ ∧ processed = []) ∨
  (∃ bt, p.1 = some bt ∧ p.2 = (ops.area bt : WithTop Int) ∧ bt ∈ processed ∧
    ∀ u ∈ processed, p.2 ≤ (ops.area u : WithTop Int) ∧
      (ops.area u = ops.area bt → ops.corners bt ≤ ops.corners u))

/-! ## Concrete inputs for counterexamples and witnesses

All use the spec-modelled Tiling with spacing `0`. -/

/-- A square 1×1 job. -/
def wJobSq : Job := ⟨1, 1, 0, 0⟩

/-- Three square jobs: a perfectly ordinary exhaustive-search input. -/
def wJobs3 : List Job := [wJobSq, wJobSq, wJobSq]

/-- A 2×1 job. -/
def wJob21 : Job := ⟨2, 1, 0, 1⟩

/-- A 3×1 job. -/
def wJobB : Job := ⟨3, 1, 2, 3⟩

/-- A 2×2 (square) job. -/
def wJob22 : Job := ⟨2, 2, 0, 1⟩

/-- A 1×2 job (minimum dimension 1). -/
def wJobC : Job := ⟨1, 2, 0, 1⟩

/-- A 5×7 job (minimum dimension 5). -/
def wJobD : Job := ⟨5, 7, 2, 3⟩

/-- An empty 10×10 panel. -/
def wPanel10 : STiling := emptyT 10 10

/-- An empty 2×2 panel. -/
def wPanel2 : STiling := emptyT 2 2

/-- An empty 20×20 panel. -/
def wPanel20 : STiling := emptyT 20 20

/-- A 10×10 tiling holding two unit squares in a 2×1 strip: bounding-box
area `2`, six distinct rectangle corners. -/
def wTL : STiling := ⟨10, 10, [⟨0, 0, 1, 1, 7⟩, ⟨1, 0, 1, 1, 8⟩]⟩

/-- A 10×10 tiling holding one 2×1 rectangle: bounding-box area `2`, four
corners — same area as `wTL`, strictly fewer corners. -/
def wTR : STiling := ⟨10, 10, [⟨0, 0, 2, 1, 0⟩]⟩

/-- A 10×10 tiling holding one unit square: bounding-box area `1`. -/
def wTS : STiling := ⟨10, 10, [⟨0, 0, 1, 1, 0⟩]⟩

/-- The tiling produced by placing `wJobC` at `(0,0)` and `wJobD` at
`(1,2)` on the 20×20 panel. -/
def wT6 : STiling := ⟨20, 20, [⟨0, 0, 1, 2, 0⟩, ⟨1, 2, 5, 7, 2⟩]⟩

/-- A coordinator state whose global best is the two-square strip `wTL`
(area 2, six corners). -/
def wCoord : CoordState STiling := ⟨((2 : Int) : WithTop Int), some wTL, 0, false⟩

/-- A worker state whose running best is the strip `wTL` (area 2). -/
def wRS : RSState STiling := ⟨some wTL, ((2 : Int) : WithTop Int), 5⟩

/-- Trial draws: job order `[0]`, non-rotated coin, first anchor. -/
def wDraw1 : TrialDraws := ⟨[0], [true], [0]⟩

/-- Trial draws: job order `[0, 1]`, non-rotated coins, first anchors. -/
def wDraw2 : TrialDraws := ⟨[0, 1], [true, true], [0, 0]⟩

/-- Timing oracle: every `time.time()` call returns `1000`, one thousand
seconds past `startTime = 0`, with `syncPeriod = 3` and a configured
`searchTimeout` of one second — the very first throttled check observes
the timeout. -/
def wCfg : TimedCfg := ⟨fun _ => 1000, 0, 3, 1, true⟩

/-- The 10×10 panel with `wJob21` placed at the origin (the tiling of the
first recursion frame of the `[wJob21, wJobB]` search). -/
def wTA : STiling := ⟨10, 10, [⟨0, 0, 2, 1, 0⟩]⟩

/-- Claim C5: trial abandonment without partial credit.  In every
`RandomSearch` trial, if the randomly chosen orientation of one of the
first `M` jobs has no valid anchor (the placement loop breaks), the whole
trial is abandoned: no exhaustive tail search runs, `bestTiling` and
`bestScore` are unchanged, and only the `placements` counter is
incremented before the loop continues with the next trial. -/
theorem c5_trial_abandoned {T : Type} (ops : TilingOps T) (xs ys : Int) (jobs : List Job)
    (esJobs : Nat) (base : T) (d : TrialDraws) (s : RSState T)
    (h : placeLoop ops xs ys jobs (ops.minDimension jobs)
      (d.joborder.take (jobs.length - esJobs)) d.coins d.picks base = none) :
    workerTrial ops xs ys jobs esJobs base d s = { s with placements := s.placements + 1 } := by
  simp only [workerTrial, h]

/-- Witness for C5: on a 2×2 panel, a trial placing two 2×2 jobs breaks
on the second job and leaves the fresh worker state unchanged except for
`placements`. -/
theorem c5_witness :
    placeLoop specOps 0 0 [wJob22, wJob22] (specOps.minDimension [wJob22, wJob22])
      (wDraw2.joborder.take ([wJob22, wJob22].length - 0)) wDraw2.coins wDraw2.picks wPanel2 =
        none ∧
    workerTrial specOps 0 0 [wJob22, wJob22] 0 wPanel2 wDraw2 (initRS STiling) =
      { initRS STiling with placements := 1 } :=
  ⟨by decide,
   c5_trial_abandoned specOps 0 0 [wJob22, wJob22] 0 wPanel2 wDraw2 (initRS STiling) (by decide)⟩

/-- Claim C8 (code bug): after the `KeyboardInterrupt` handler terminates
the workers, `tile_search_random` formats the float `computeTime` with
`{:d}`, so for every attempt count, elapsed time and accumulated best the
return path raises `ValueError` instead of returning the best tiling. -/
theorem c8_coordinator_always_raises {T : Type} (placementsTried : Nat) (elapsed : Rat)
    (best : Option T) :
    tileSearchRandomFinish placementsTried elapsed best =
      Except.error "ValueError: unknown format code d for float" := rfl

/-- Claim C7 (code bug): the throttled timeout check does not stop the
exhaustive search.  With `searchTimeout = 1` second and every clock
reading one thousand seconds past `startTime`, the recursion frame for
the second job observes the timeout and returns after its 2 permutations
(first two conjuncts), yet the full two-job search — whose first child
frame is exactly that frame — still explores all
`possiblePermutations = 8` permutations, because the `return` pops only
one frame and the `lastCheckTime` update throttles later checks (last two
conjuncts: the ghost `timedOut` flag fired and the counter reaches the
full space size). -/
theorem c7_timeout_ineffective :
    (esRunTF specOps 0 0 wCfg 1 [wJobB] wTA true (initTS STiling)).timedOut = true ∧
    (esRunTF specOps 0 0 wCfg 1 [wJobB] wTA true (initTS STiling)).permutations = 2 ∧
    (esRunT specOps 0 0 wCfg [wJob21, wJobB] wPanel10).timedOut = true ∧
    (esRunT specOps 0 0 wCfg [wJob21, wJobB] wPanel10).permutations =
      possiblePermutations [wJob21, wJobB] :=
  ⟨rfl, rfl, rfl, rfl⟩

/-- Counterexample to claim C1: for three ordinary square 1×1 jobs on a
10×10 panel the completed exhaustive search counts only 36 permutations,
not `possiblePermutations = (2^3)*3! = 48` — each square-job prune with
`m` remaining jobs adds `2^m` although the skipped subtree holds
`2^m * m!` permutations. -/
theorem c1_counterexample :
    (esRun specOps 0 0 wJobs3 wPanel10).permutations = 36 ∧
    possiblePermutations wJobs3 = 48 ∧
    (esRun specOps 0 0 wJobs3 wPanel10).permutations ≠ possiblePermutations wJobs3 := by
  decide

/-- Counterexample to claim C3: a drained message whose tiling `wTR` has
the same bounding-box area (2) as the coordinator's global best `wTL` but
strictly fewer corners (4 < 6) does not replace the global best — the
coordinator compares areas only. -/
theorem c3_counterexample :
    specOps.area wTR = 2 ∧ wCoord.bestScore = ((2 : Int) : WithTop Int) ∧
    wCoord.bestTiling = some wTL ∧ specOps.corners wTR < specOps.corners wTL ∧
    (coordMerge specOps wCoord (1, some wTR)).bestTiling = some wTL ∧
    (coordMerge specOps wCoord (1, some wTR)).bestTiling ≠ some wTR := by
  decide

/-- Claim C3 amended: the coordinator updates its global best exactly
when a drained result carries a tiling of strictly smaller area than the
global `bestScore` (and it always accumulates the attempt count); corner
counts are never consulted at the merge point. -/
theorem c3_amended_coordinator_area_only {T : Type} (ops : TilingOps T) (s : CoordState T)
    (msg : Nat × Option T) :
    (coordMerge ops s msg).placementsTried = s.placementsTried + msg.1 ∧
    (∀ t, msg.2 = some t → (ops.area t : WithTop Int) < s.bestScore →
      (coordMerge ops s msg).bestTiling = some t ∧
      (coordMerge ops s msg).bestScore = (ops.area t : WithTop Int) ∧
      (coordMerge ops s msg).foundBetter = true) ∧
    (∀ t, msg.2 = some t → ¬ (ops.area t : WithTop Int) < s.bestScore →
      (coordMerge ops s msg).bestTiling = s.bestTiling ∧
      (coordMerge ops s msg).bestScore = s.bestScore ∧
      (coordMerge ops s msg).foundBetter = s.foundBetter) ∧
    (msg.2 = none →
      (coordMerge ops s msg).bestTiling = s.bestTiling ∧
      (coordMerge ops s msg).bestScore = s.bestScore ∧
      (coordMerge ops s msg).foundBetter = s.foundBetter) := by
  obtain ⟨c, mt⟩ := msg
  cases mt with
  | none => simp [coordMerge]
  | some t0 =>
      by_cases hlt : (ops.area t0 : WithTop Int) < s.bestScore
      · simp [coordMerge, hlt]
      · simp [coordMerge, hlt]

/-- Witness for C3 amended: a strictly smaller-area tiling (area 1
against best 2) does replace the coordinator's best. -/
theorem c3_witness :
    (coordMerge specOps wCoord (1, some wTS)).bestTiling = some wTS ∧
    (coordMerge specOps wCoord (1, some wTS)).bestScore = ((1 : Int) : WithTop Int) := by
  have h := (c3_amended_coordinator_area_only specOps wCoord (1, some wTS)).2.1 wTS rfl
    (by decide)
  exact ⟨h.1, h.2.1⟩

/-- Counterexample to claim C4: a trial whose exhaustive tail returns a
tiling of the same area (2) as the worker's running best but with fewer
corners (4 < 6) does not replace the running best — line 136 of
`tilesearch.py` compares `bestScore` (area) only. -/
theorem c4_counterexample :
    (esRun specOps 0 0 [wJob21] wPanel10).bestScore = wRS.bestScore ∧
    (esRun specOps 0 0 [wJob21] wPanel10).bestTiling = some wTR ∧
    specOps.corners wTR < specOps.corners wTL ∧
    wRS.bestTiling = some wTL ∧
    (workerTrial specOps 0 0 [wJob21] 1 wPanel10 wDraw1 wRS).bestTiling = some wTL ∧
    (workerTrial specOps 0 0 [wJob21] 1 wPanel10 wDraw1 wRS).bestScore = wRS.bestScore := by
  decide

/-- Claim C4 amended: when all `M` randomly-placed jobs succeed and a
tail remains, the worker's running best is replaced exactly when the tail
search's `bestScore` (bounding-box area) is strictly smaller than the
worker's `bestScore`; corner counts are not compared at this step. -/
theorem c4_amended_tail_area_only {T : Type} (ops : TilingOps T) (xs ys : Int)
    (jobs : List Job) (esJobs : Nat) (base : T) (d : TrialDraws) (s : RSState T) (t : T)
    (hplace : placeLoop ops xs ys jobs (ops.minDimension jobs)
      (d.joborder.take (jobs.length - esJobs)) d.coins d.picks base = some t)
    (htail : jobs.length - (jobs.length - esJobs) ≠ 0) :
    ((esRun ops xs ys ((d.joborder.drop (jobs.length - esJobs)).map
          (fun ix => jobs.getD ix dummyJob)) t).bestScore < s.bestScore →
      (workerTrial ops xs ys jobs esJobs base d s).bestTiling =
        (esRun ops xs ys ((d.joborder.drop (jobs.length - esJobs)).map
          (fun ix => jobs.getD ix dummyJob)) t).bestTiling ∧
      (workerTrial ops xs ys jobs esJobs base d s).bestScore =
        (esRun ops xs ys ((d.joborder.drop (jobs.length - esJobs)).map
          (fun ix => jobs.getD ix dummyJob)) t).bestScore) ∧
    (¬ (esRun ops xs ys ((d.joborder.drop (jobs.length - esJobs)).map
          (fun ix => jobs.getD ix dummyJob)) t).bestScore < s.bestScore →
      (workerTrial ops xs ys jobs esJobs base d s).bestTiling = s.bestTiling ∧
      (workerTrial ops xs ys jobs esJobs base d s).bestScore = s.bestScore) := by
  simp only [workerTrial, hplace, if_pos htail]
  refine ⟨fun hlt => ?_, fun hlt => ?_⟩
  · rw [if_pos hlt]
    exact ⟨rfl, rfl⟩
  · rw [if_neg hlt]
    exact ⟨rfl, rfl⟩

/-- Witness for C4 amended: from a fresh worker state (infinite best
score) the tail search's strictly better result is adopted. -/
theorem c4_witness :
    (esRun specOps 0 0 [wJob21] wPanel10).bestScore < (initRS STiling).bestScore ∧
    (workerTrial specOps 0 0 [wJob21] 1 wPanel10 wDraw1 (initRS STiling)).bestTiling =
      (esRun specOps 0 0 [wJob21] wPanel10).bestTiling :=
  ⟨by decide,
   ((c4_amended_tail_area_only specOps 0 0 [wJob21] 1 wPanel10 wDraw1 (initRS STiling)
      wPanel10 (by decide) (by decide)).1 (by decide)).1⟩

/-- Counterexample to claim C6: in a trial over a 1×2 job and a 5×7 job,
the ghost log shows both `removeInlets` calls received threshold 1 (the
minimum over the whole job list, computed once per trial), although when
the second job is placed the only outstanding job has minimum dimension
5. -/
theorem c6_counterexample :
    (placeLoop (loggedOps specOps) 0 0 [wJobC, wJobD] (specOps.minDimension [wJobC, wJobD])
      [0, 1] [true, true] [0, 0] (wPanel20, [])).map Prod.snd = some [1, 1] ∧
    specOps.minDimension [wJobC, wJobD] = 1 ∧
    specOps.minDimension [wJobD] = 5 ∧
    some ([1, (1 : Int)] : List Int) ≠ some [1, 5] := by
  decide

/-- Claim C6 amended: every `removeInlets` call of a completed
`RandomSearch` placement loop receives the same threshold — the minimum
dimension over the trial's entire job list, computed once before the
loop — not the minimum over the still-outstanding jobs. -/
theorem c6_amended_whole_list_min {T : Type} (ops : TilingOps T) (xs ys : Int)
    (jobs : List Job) :
    ∀ (order : List Nat) (coins : List Bool) (picks : List Nat) (t0 : T) (l0 : List Int)
      (t : T) (l : List Int),
      placeLoop (loggedOps ops) xs ys jobs (ops.minDimension jobs) order coins picks (t0, l0) =
        some (t, l) →
      l = l0 ++ List.replicate order.length (ops.minDimension jobs) := by
  intro order
  induction order with
  | nil =>
      intro coins picks t0 l0 t l h
      simp only [placeLoop, Option.some.injEq] at h
      injection h with h1 h2
      subst h2
      simp
  | cons ix rest ih =>
      intro coins picks t0 l0 t l h
      simp only [placeLoop, loggedOps] at h
      split at h
      · split at h
        · exact absurd h (by simp)
        · have hrec := ih _ _ _ _ _ _ h
          simp [hrec, List.replicate_succ, List.append_assoc]
      · split at h
        · exact absurd h (by simp)
        · have hrec := ih _ _ _ _ _ _ h
          simp [hrec, List.replicate_succ, List.append_assoc]

/-- Witness for C6 amended: the two-placement trial logs exactly two
copies of the whole-list minimum. -/
theorem c6_witness :
    placeLoop (loggedOps specOps) 0 0 [wJobC, wJobD] (specOps.minDimension [wJobC, wJobD])
      [0, 1] [true, true] [0, 0] (wPanel20, []) = some (wT6, [1, 1]) ∧
    ([1, (1 : Int)] : List Int) =
      [] ++ List.replicate ([0, 1] : List Nat).length (specOps.minDimension [wJobC, wJobD]) :=
  ⟨by decide,
   c6_amended_whole_list_min specOps 0 0 [wJobC, wJobD] [0, 1] [true, true] [0, 0]
     wPanel20 [] wT6 [1, 1] (by decide)⟩

/-- Claim C9: monotonic improvement within a worker.  A single trial
never increases the worker's `bestScore`; `bestTiling` changes only
together with a strict `bestScore` decrease; and over any sequence of
trials `bestScore` is non-increasing. -/
theorem c9_monotonic_improvement {T : Type} (ops : TilingOps T) (xs ys : Int)
    (jobs : List Job) (esJobs : Nat) (base : T) :
    (∀ (d : TrialDraws) (s : RSState T),
      (workerTrial ops xs ys jobs esJobs base d s).bestScore ≤ s.bestScore ∧
      ((workerTrial ops xs ys jobs esJobs base d s).bestTiling ≠ s.bestTiling →
        (workerTrial ops xs ys jobs esJobs base d s).bestScore < s.bestScore)) ∧
    (∀ (ds : List TrialDraws) (s : RSState T),
      (runTrials ops xs ys jobs esJobs base ds s).bestScore ≤ s.bestScore) := by
  have single : ∀ (d : TrialDraws) (s : RSState T),
      (workerTrial ops xs ys jobs esJobs base d s).bestScore ≤ s.bestScore ∧
      ((workerTrial ops xs ys jobs esJobs base d s).bestTiling ≠ s.bestTiling →
        (workerTrial ops xs ys jobs esJobs base d s).bestScore < s.bestScore) := by
    intro d s
    simp only [workerTrial]
    cases hpl : placeLoop ops xs ys jobs (ops.minDimension jobs)
        (d.joborder.take (jobs.length - esJobs)) d.coins d.picks base with
    | none => exact ⟨le_refl _, fun hne => absurd rfl hne⟩
    | some t =>
        dsimp only
        by_cases htail : jobs.length - (jobs.length - esJobs) ≠ 0
        · rw [if_pos htail]
          by_cases hlt : (esRun ops xs ys ((d.joborder.drop (jobs.length - esJobs)).map
              (fun ix => jobs.getD ix dummyJob)) t).bestScore < s.bestScore
          · rw [if_pos hlt]
            exact ⟨le_of_lt hlt, fun _ => hlt⟩
          · rw [if_neg hlt]
            exact ⟨le_refl _, fun hne => absurd rfl hne⟩
        · rw [if_neg htail]
          exact ⟨le_refl _, fun hne => absurd rfl hne⟩
  refine ⟨single, ?_⟩
  intro ds
  induction ds with
  | nil => intro s; exact le_refl _
  | cons d rest ih =>
      intro s
      exact le_trans (ih (workerTrial ops xs ys jobs esJobs base d s)) (single d s).1

/-- Witness for C9: a trial that does change `bestTiling` exhibits the
strict score decrease. -/
theorem c9_witness :
    (workerTrial specOps 0 0 [wJob21] 1 wPanel10 wDraw1 (initRS STiling)).bestTiling ≠
      (initRS STiling).bestTiling ∧
    (workerTrial specOps 0 0 [wJob21] 1 wPanel10 wDraw1 (initRS STiling)).bestScore <
      (initRS STiling).bestScore :=
  ⟨by decide,
   ((c9_monotonic_improvement specOps 0 0 [wJob21] 1 wPanel10).1 wDraw1
     (initRS STiling)).2 (by decide)⟩

/-- Helper: a fold preserves any invariant its step preserves. -/
theorem foldl_pres {α β : Type _} {P : α → Prop} {f : α → β → α} :
    ∀ (l : List β), (∀ b ∈ l, ∀ a, P a → P (f a b)) → ∀ a, P a → P (l.foldl f a) := by
  intro l
  induction l with
  | nil => intro _ a ha; exact ha
  | cons b rest ih =>
      intro h a ha
      simp only [List.foldl_cons]
      exact ih (fun x hx a2 ha2 => h x (List.mem_cons_of_mem _ hx) a2 ha2) _
        (h b (List.mem_cons_self _ _) a ha)

/-- Helper: `pairStep` preserves the tie between a `none` best tiling and
an infinite best score. -/
theorem pairStep_scoreInv {T : Type} (ops : TilingOps T) (p : Option T × WithTop Int)
    (tiles : T) (h : p.1 = none → p.2 = ⊤) :
    (pairStep ops p tiles).1 = none → (pairStep ops p tiles).2 = ⊤ := by
  obtain ⟨p1, p2⟩ := p
  cases p1 with
  | none =>
      have h2 : p2 = ⊤ := h rfl
      subst h2
      simp [pairStep]
  | some bt =>
      by_cases h1 : ((ops.area tiles : WithTop Int) < p2)
      · simp [pairStep, h1]
      · by_cases h2 : ((ops.area tiles : WithTop Int) = p2)
        · by_cases h3 : ops.corners tiles < ops.corners bt <;>
            simp [pairStep, h1, h2, h3]
        · simp [pairStep, h1, h2]

/-- Helper: `leafVisit` preserves `scoreInv`. -/
theorem leafVisit_scoreInv {T : Type} (ops : TilingOps T) (tiles : T) (first : Bool)
    (s : ESState T) (h : scoreInv s) : scoreInv (leafVisit ops tiles first s) := by
  unfold leafVisit
  cases first <;>
    exact fun hn => pairStep_scoreInv ops (s.bestTiling, s.bestScore) tiles h hn

/-- Helper: `anchorPass` preserves `scoreInv` when the recursive call does. -/
theorem anchorPass_scoreInv {T : Type} (recur : T → Bool → ESState T → ESState T)
    (place : Point → T) (first : Bool) (pc : Nat) (ap : List Point)
    (hrec : ∀ t fl st, scoreInv st → scoreInv (recur t fl st)) (s : ESState T)
    (h : scoreInv s) : scoreInv (anchorPass recur place first pc ap s) := by
  cases ap with
  | nil =>
      unfold anchorPass
      cases first <;> exact h
  | cons hd tl =>
      unfold anchorPass
      exact foldl_pres _ (fun p _ st hst => hrec (place p) _ st hst) s h

/-- Helper: `selPass` preserves `scoreInv` when the recursive call does. -/
theorem selPass_scoreInv {T : Type} (ops : TilingOps T) (xs ys : Int)
    (recur : List Job → T → Bool → ESState T → ESState T) (tiles2 : T) (first : Bool)
    (sel : Job × List Job)
    (hrec : ∀ rj t fl st, scoreInv st → scoreInv (recur rj t fl st)) (s : ESState T)
    (h : scoreInv s) : scoreInv (selPass ops xs ys recur tiles2 first s sel) := by
  unfold selPass
  exact anchorPass_scoreInv _ _ _ _ _ (fun t fl st hst => hrec _ t fl st hst) _
    (anchorPass_scoreInv _ _ _ _ _ (fun t fl st hst => hrec _ t fl st hst) s h)

/-- Helper: the whole recursion preserves `scoreInv`. -/
theorem esRunF_scoreInv {T : Type} (ops : TilingOps T) (xs ys : Int) :
    ∀ (fuel : Nat) (Jobs : List Job) (tiles : T) (first : Bool) (s : ESState T),
      scoreInv s → scoreInv (esRunF ops xs ys fuel Jobs tiles first s) := by
  intro fuel
  induction fuel with
  | zero =>
      intro Jobs tiles first s h
      cases Jobs with
      | nil => exact leafVisit_scoreInv ops tiles first s h
      | cons a l => exact h
  | succ fuel ih =>
      intro Jobs tiles first s h
      cases Jobs with
      | nil => exact leafVisit_scoreInv ops tiles first s h
      | cons a l =>
          simp only [esRunF]
          exact foldl_pres _
            (fun sel _ st hst => selPass_scoreInv ops xs ys _ _ first sel
              (fun rj t fl st2 hst2 => ih rj t fl st2 hst2) st hst) s h

/-- Claim C10: safety of the leaf-update tie branch.  The invariant
`scoreInv` (no best tiling implies an infinite best score) holds of the
initial search state and is preserved by the entire recursion; and in any
state satisfying it, if a leaf's (finite) area ties `bestScore` — the
only way Python evaluates `self.bestTiling.corners()` — then `bestTiling`
is a previously stored tiling, never `None`. -/
theorem c10_tie_break_safe {T : Type} (ops : TilingOps T) (xs ys : Int) (fuel : Nat)
    (Jobs : List Job) (tiles : T) (first : Bool) (s : ESState T) (h : scoreInv s) :
    scoreInv (initES T) ∧
    scoreInv (esRunF ops xs ys fuel Jobs tiles first s) ∧
    (∀ u : T, (ops.area u : WithTop Int) = s.bestScore → ∃ bt, s.bestTiling = some bt) := by
  refine ⟨fun _ => rfl, esRunF_scoreInv ops xs ys fuel Jobs tiles first s h, ?_⟩
  intro u hu
  cases hb : s.bestTiling with
  | some bt => exact ⟨bt, rfl⟩
  | none =>
      rw [h hb] at hu
      exact absurd hu (WithTop.coe_ne_top)

/-- Witness for C10: the invariant holds of the initial state and of a
completed one-job run. -/
theorem c10_witness :
    scoreInv (initES STiling) ∧
    scoreInv (esRunF specOps 0 0 1 [wJob21] wPanel10 true (initES STiling)) :=
  ⟨(c10_tie_break_safe specOps 0 0 1 [wJob21] wPanel10 true (initES STiling)
      (fun _ => rfl)).1,
   (c10_tie_break_safe specOps 0 0 1 [wJob21] wPanel10 true (initES STiling)
      (fun _ => rfl)).2.1⟩

/-! ## Permutation counting (claim C1) -/

/-- Helper: each selection keeps all jobs but the chosen one. -/
theorem selections_rem_length :
    ∀ (l : List Job) (sel : Job × List Job), sel ∈ selections l →
      sel.2.length + 1 = l.length := by
  intro l
  induction l with
  | nil => intro sel h; simp [selections] at h
  | cons j rest ih =>
      intro sel h
      simp only [selections, List.mem_cons, List.mem_map] at h
      rcases h with rfl | ⟨p, hp, rfl⟩
      · simp
      · have := ih p hp
        simp only [List.length_cons]
        omega

/-- Helper: there is one selection per job. -/
theorem selections_length : ∀ l : List Job, (selections l).length = l.length := by
  intro l
  induction l with
  | nil => rfl
  | cons j rest ih => simp [selections, ih]

/-- Helper: a fold whose step never touches `permutations` leaves it
unchanged. -/
theorem foldl_perm_eq {T β : Type _} (f : ESState T → β → ESState T) :
    ∀ (l : List β), (∀ b ∈ l, ∀ st, (f st b).permutations = st.permutations) →
      ∀ s : ESState T, (l.foldl f s).permutations = s.permutations := by
  intro l
  induction l with
  | nil => intro _ s; rfl
  | cons b rest ih =>
      intro h s
      simp only [List.foldl_cons]
      rw [ih (fun x hx st => h x (List.mem_cons_of_mem _ hx) st) (f s b),
        h b (List.mem_cons_self _ _) s]

/-- Helper: a fold whose step adds `K` to `permutations` against a deficit
`D` adds `length * K` in total. -/
theorem foldl_perm_sum {T β : Type _} (f : ESState T → β → ESState T) (D : β → Nat) (K : Nat) :
    ∀ (l : List β), (∀ b ∈ l, ∀ st : ESState T,
        (f st b).permutations + D b = st.permutations + K) →
      ∀ s : ESState T, (l.foldl f s).permutations + (l.map D).sum =
        s.permutations + l.length * K := by
  intro l
  induction l with
  | nil => intro _ s; simp
  | cons b rest ih =>
      intro h s
      simp only [List.foldl_cons, List.map_cons, List.sum_cons, List.length_cons]
      have h1 := h b (List.mem_cons_self _ _) s
      have h2 := ih (fun x hx st => h x (List.mem_cons_of_mem _ hx) st) (f s b)
      rw [Nat.succ_mul]
      generalize hRK : rest.length * K = RK at h2 ⊢
      omega

/-- Helper: a `False` `firstAddPoint` flag makes an anchor pass leave
`permutations` unchanged (neither the leaves nor the prune correction
count). -/
theorem anchorPass_false_perm {T : Type} (recur : T → Bool → ESState T → ESState T)
    (place : Point → T) (pc : Nat) (ap : List Point)
    (hfalse : ∀ t st, (recur t false st).permutations = st.permutations) (s : ESState T) :
    (anchorPass recur place false pc ap s).permutations = s.permutations := by
  cases ap with
  | nil => simp [anchorPass]
  | cons hd tl =>
      simp only [anchorPass, Bool.false_and]
      exact foldl_perm_eq _ _ (fun p hp st => hfalse (place p) st) s

/-- Helper: with a `False` flag a whole `job_ix` iteration leaves
`permutations` unchanged. -/
theorem selPass_false_perm {T : Type} (ops : TilingOps T) (xs ys : Int)
    (recur : List Job → T → Bool → ESState T → ESState T) (tiles2 : T)
    (sel : Job × List Job)
    (hfalse : ∀ rj t st, (recur rj t false st).permutations = st.permutations)
    (s : ESState T) :
    (selPass ops xs ys recur tiles2 false s sel).permutations = s.permutations := by
  unfold selPass
  rw [anchorPass_false_perm _ _ _ _ (fun t st => hfalse sel.2 t st),
    anchorPass_false_perm _ _ _ _ (fun t st => hfalse sel.2 t st)]

/-- Helper: a run entered with `firstAddPoint = False` contributes nothing
to the `permutations` counter. -/
theorem esRunF_false_perm {T : Type} (ops : TilingOps T) (xs ys : Int) :
    ∀ (fuel : Nat) (Jobs : List Job) (tiles : T) (s : ESState T),
      (esRunF ops xs ys fuel Jobs tiles false s).permutations = s.permutations := by
  intro fuel
  induction fuel with
  | zero =>
      intro Jobs tiles s
      cases Jobs with
      | nil => simp [esRunF, leafVisit]
      | cons a l => rfl
  | succ fuel ih =>
      intro Jobs tiles s
      cases Jobs with
      | nil => simp [esRunF, leafVisit]
      | cons a l =>
          simp only [esRunF]
          exact foldl_perm_eq _ _
            (fun sel hsel st => selPass_false_perm ops xs ys _ _ sel
              (fun rj t st2 => ih rj t st2) st) s

/-- Helper: the counting identity for one anchor pass along the
`firstAddPoint` chain: counter increase plus deficit equals the full
subtree size `2 ^ m * m!`. -/
theorem anchorPass_true_perm {T : Type} (recur : T → Bool → ESState T → ESState T)
    (recurD : T → Nat) (place : Point → T) (m : Nat) (ap : List Point)
    (hnodup : ap.Nodup)
    (hfalse : ∀ t st, (recur t false st).permutations = st.permutations)
    (htrue : ∀ t st, (recur t true st).permutations + recurD t =
      st.permutations + 2 ^ m * Nat.factorial m)
    (s : ESState T) :
    (anchorPass recur place true m ap s).permutations + anchorDeficit recurD place m ap =
      s.permutations + 2 ^ m * Nat.factorial m := by
  cases ap with
  | nil =>
      have hle : 2 ^ m ≤ 2 ^ m * Nat.factorial m :=
        Nat.le_mul_of_pos_right _ (Nat.factorial_pos m)
      simp only [anchorPass, anchorDeficit, if_true]
      omega
  | cons hd tl =>
      have hne : ∀ p ∈ tl, p ≠ hd :=
        fun p hp heq => absurd (heq ▸ hp) (List.nodup_cons.mp hnodup).1
      simp only [anchorPass, anchorDeficit, List.foldl_cons, decide_True, Bool.and_true,
        Bool.and_self]
      have hrest :
          (tl.foldl (fun st p => recur (place p) (true && decide (p = hd)) st)
            (recur (place hd) true s)).permutations =
          (recur (place hd) true s).permutations := by
        apply foldl_perm_eq
        intro p hp st2
        have hb : (true && decide (p = hd)) = false := by simp [hne p hp]
        rw [hb]
        exact hfalse _ _
      rw [hrest]
      exact htrue (place hd) s

/-- Helper: the counting identity for one `job_ix` iteration along the
`firstAddPoint` chain: both orientation branches together account for
`2 * 2 ^ m * m!` permutations. -/
theorem selPass_true_perm {T : Type} (ops : TilingOps T) (xs ys : Int)
    (recur : List Job → T → Bool → ESState T → ESState T)
    (recurD : List Job → T → Nat) (tiles2 : T) (sel : Job × List Job)
    (hnd : ∀ t w h, (ops.validAddPoints t w h).Nodup)
    (hfalse : ∀ t st, (recur sel.2 t false st).permutations = st.permutations)
    (htrue : ∀ t st, (recur sel.2 t true st).permutations + recurD sel.2 t =
      st.permutations + 2 ^ sel.2.length * Nat.factorial sel.2.length)
    (s : ESState T) :
    (selPass ops xs ys recur tiles2 true s sel).permutations +
        selDeficit ops xs ys recurD tiles2 sel =
      s.permutations + 2 * (2 ^ sel.2.length * Nat.factorial sel.2.length) := by
  simp only [selPass, selDeficit]
  have h1 := anchorPass_true_perm (fun t fl st => recur sel.2 t fl st)
    (fun t => recurD sel.2 t)
    (fun p => ops.addJob tiles2 p (sel.1.Xdim + xs) (sel.1.Ydim + ys) sel.1.job)
    sel.2.length (ops.validAddPoints tiles2 (sel.1.Xdim + xs) (sel.1.Ydim + ys))
    (hnd _ _ _) hfalse htrue s
  have h2 := anchorPass_true_perm (fun t fl st => recur sel.2 t fl st)
    (fun t => recurD sel.2 t)
    (fun p => ops.addJob tiles2 p (sel.1.Ydim + xs) (sel.1.Xdim + ys) sel.1.rjob)
    sel.2.length
    (if sel.1.Xdim ≠ sel.1.Ydim
      then ops.validAddPoints tiles2 (sel.1.Ydim + xs) (sel.1.Xdim + ys) else [])
    (by split
        · exact hnd _ _ _
        · exact List.nodup_nil) hfalse htrue
    (anchorPass (fun t fl st => recur sel.2 t fl st)
      (fun p => ops.addJob tiles2 p (sel.1.Xdim + xs) (sel.1.Ydim + ys) sel.1.job)
      true sel.2.length (ops.validAddPoints tiles2 (sel.1.Xdim + xs) (sel.1.Ydim + ys)) s)
  omega

/-- Helper: the counting identity for the whole recursion along the
`firstAddPoint` chain. -/
theorem esRunF_true_perm {T : Type} (ops : TilingOps T) (xs ys : Int)
    (hnd : ∀ t w h, (ops.validAddPoints t w h).Nodup) :
    ∀ (fuel : Nat) (Jobs : List Job), Jobs.length = fuel → ∀ (tiles : T) (s : ESState T),
      (esRunF ops xs ys fuel Jobs tiles true s).permutations +
          pruneDeficitF ops xs ys fuel Jobs tiles =
        s.permutations + 2 ^ fuel * Nat.factorial fuel := by
  intro fuel
  induction fuel with
  | zero =>
      intro Jobs hlen tiles s
      have hJ : Jobs = [] := List.eq_nil_of_length_eq_zero hlen
      subst hJ
      simp [esRunF, pruneDeficitF, leafVisit]
  | succ fuel ih =>
      intro Jobs hlen tiles s
      cases Jobs with
      | nil => simp at hlen
      | cons a l =>
          have hlen2 : l.length = fuel := by
            simp only [List.length_cons] at hlen
            omega
          simp only [esRunF, pruneDeficitF]
          have step : ∀ sel ∈ selections (a :: l), ∀ st : ESState T,
              (selPass ops xs ys (fun rj t fl st2 => esRunF ops xs ys fuel rj t fl st2)
                  (ops.removeInlets tiles (ops.minDimension (a :: l))) true st sel).permutations +
                selDeficit ops xs ys (fun rj t => pruneDeficitF ops xs ys fuel rj t)
                  (ops.removeInlets tiles (ops.minDimension (a :: l))) sel =
              st.permutations + 2 * (2 ^ fuel * Nat.factorial fuel) := by
            intro sel hsel st
            have hm : sel.2.length = fuel := by
              have hr := selections_rem_length _ _ hsel
              simp only [List.length_cons] at hr
              omega
            have h := selPass_true_perm ops xs ys
              (fun rj t fl st2 => esRunF ops xs ys fuel rj t fl st2)
              (fun rj t => pruneDeficitF ops xs ys fuel rj t)
              (ops.removeInlets tiles (ops.minDimension (a :: l))) sel hnd
              (fun t st2 => esRunF_false_perm ops xs ys fuel sel.2 t st2)
              (fun t st2 => by rw [hm]; exact ih sel.2 hm t st2) st
            rw [hm] at h
            exact h
          have hfold := foldl_perm_sum _ _ _ (selections (a :: l)) step s
          rw [selections_length] at hfold
          have harith : 2 ^ (fuel + 1) * Nat.factorial (fuel + 1) =
              (a :: l).length * (2 * (2 ^ fuel * Nat.factorial fuel)) := by
            simp only [List.length_cons, hlen2]
            rw [pow_succ, Nat.factorial_succ]
            ring
          rw [harith]
          exact hfold

/-- Claim C1 amended: permutation conservation up to the prune deficit.
For every job list, whenever `ExhaustiveSearch.run` executes until the
search space is exhausted (no timeout), the `permutations` counter plus
the pruning deficit — `2^m * m! - 2^m` for every pruned branch with `m`
remaining jobs, since each prune adds only `2^m` while the skipped
subtree holds `2^m * m!` permutations — equals `possiblePermutations =
(2^N) * N!`.  The counter itself reaches `possiblePermutations` exactly
when every prune (including the square-job rotation skip) occurs with at
most one job remaining; the hypothesis asks `validAddPoints` to return
duplicate-free anchor sets, as the spec specifies. -/
theorem c1_amended_permutation_conservation {T : Type} (ops : TilingOps T) (xs ys : Int)
    (hnd : ∀ t w h, (ops.validAddPoints t w h).Nodup) (Jobs : List Job) (tiles : T) :
    (esRun ops xs ys Jobs tiles).permutations + pruneDeficit ops xs ys Jobs tiles =
      possiblePermutations Jobs := by
  have h := esRunF_true_perm ops xs ys hnd Jobs.length Jobs rfl tiles (initES T)
  simpa [esRun, pruneDeficit, possiblePermutations, initES] using h

/-- Helper: the spec-modelled `validAddPoints` returns a duplicate-free
list (it filters a deduplicated candidate list). -/
theorem specValidAddPoints_nodup (t : STiling) (w h : Int) :
    (specValidAddPoints t w h).Nodup :=
  List.Nodup.filter _ (List.nodup_dedup _)

/-- Witness for C1 amended: the spec-modelled tiling returns Nodup
anchor lists, and a one-job search satisfies the conservation identity
(2 counted permutations, deficit 0, possiblePermutations 2). -/
theorem c1_witness :
    (∀ (t : STiling) (w h : Int), (specOps.validAddPoints t w h).Nodup) ∧
    (esRun specOps 0 0 [wJob21] wPanel10).permutations +
        pruneDeficit specOps 0 0 [wJob21] wPanel10 = possiblePermutations [wJob21] :=
  ⟨fun t w h => specValidAddPoints_nodup t w h,
   c1_amended_permutation_conservation specOps 0 0
     (fun t w h => specValidAddPoints_nodup t w h) [wJob21] wPanel10⟩

/-! ## Refinement of the best-tiling tracking (claim C2) -/

/-- Helper: `leafVisit` acts on the best pair as `pairStep`. -/
theorem bp_leafVisit {T : Type} (ops : TilingOps T) (tiles : T) (first : Bool)
    (s : ESState T) : bp (leafVisit ops tiles first s) = pairStep ops (bp s) tiles := by
  unfold leafVisit bp
  cases first <;> rfl

/-- Helper: a fold over recursive calls acts on the best pair as the fold
of `pairStep` over the collected leaf lists, whatever the flags. -/
theorem bp_foldl_anchors {T : Type} (recur : T → Bool → ESState T → ESState T)
    (recurL : T → List T) (ops : TilingOps T) (place : Point → T) (fl : Point → Bool)
    (hrec : ∀ t b st, bp (recur t b st) = (recurL t).foldl (pairStep ops) (bp st)) :
    ∀ (l : List Point) (s : ESState T),
      bp (l.foldl (fun st p => recur (place p) (fl p) st) s) =
        ((l.map (fun p => recurL (place p))).flatten).foldl (pairStep ops) (bp s) := by
  intro l
  induction l with
  | nil => intro s; rfl
  | cons p rest ih =>
      intro s
      simp only [List.foldl_cons, List.map_cons, List.flatten_cons, List.foldl_append]
      rw [ih, hrec]

/-- Helper: one anchor pass acts on the best pair as the fold of
`pairStep` over its leaf list (the prune correction touches only the
counter). -/
theorem bp_anchorPass {T : Type} (ops : TilingOps T)
    (recur : T → Bool → ESState T → ESState T) (recurL : T → List T)
    (place : Point → T) (first : Bool) (pc : Nat) (ap : List Point) (s : ESState T)
    (hrec : ∀ t b st, bp (recur t b st) = (recurL t).foldl (pairStep ops) (bp st)) :
    bp (anchorPass recur place first pc ap s) =
      (anchorLeaves recurL place ap).foldl (pairStep ops) (bp s) := by
  cases ap with
  | nil =>
      unfold anchorPass anchorLeaves
      cases first <;> rfl
  | cons hd tl =>
      unfold anchorPass anchorLeaves
      exact bp_foldl_anchors recur recurL ops place _ hrec (hd :: tl) s

/-- Helper: one `job_ix` iteration acts on the best pair as the fold of
`pairStep` over its leaf list. -/
theorem bp_selPass {T : Type} (ops : TilingOps T) (xs ys : Int)
    (recur : List Job → T → Bool → ESState T → ESState T)
    (recurL : List Job → T → List T) (tiles2 : T) (first : Bool)
    (sel : Job × List Job) (s : ESState T)
    (hrec : ∀ rj t b st, bp (recur rj t b st) = (recurL rj t).foldl (pairStep ops) (bp st)) :
    bp (selPass ops xs ys recur tiles2 first s sel) =
      (selLeaves ops xs ys recurL tiles2 sel).foldl (pairStep ops) (bp s) := by
  simp only [selPass, selLeaves, List.foldl_append]
  rw [bp_anchorPass ops (fun t fl st => recur sel.2 t fl st) (fun t => recurL sel.2 t)
      (fun p => ops.addJob tiles2 p (sel.1.Ydim + xs) (sel.1.Xdim + ys) sel.1.rjob) first
      sel.2.length
      (if sel.1.Xdim ≠ sel.1.Ydim
        then ops.validAddPoints tiles2 (sel.1.Ydim + xs) (sel.1.Xdim + ys) else [])
      (anchorPass (fun t fl st => recur sel.2 t fl st)
        (fun p => ops.addJob tiles2 p (sel.1.Xdim + xs) (sel.1.Ydim + ys) sel.1.job) first
        sel.2.length (ops.validAddPoints tiles2 (sel.1.Xdim + xs) (sel.1.Ydim + ys)) s)
      (fun t b st => hrec sel.2 t b st),
    bp_anchorPass ops (fun t fl st => recur sel.2 t fl st) (fun t => recurL sel.2 t)
      (fun p => ops.addJob tiles2 p (sel.1.Xdim + xs) (sel.1.Ydim + ys) sel.1.job) first
      sel.2.length (ops.validAddPoints tiles2 (sel.1.Xdim + xs) (sel.1.Ydim + ys)) s
      (fun t b st => hrec sel.2 t b st)]

/-- Helper: the recursion acts on the best pair as the fold of `pairStep`
over the full leaf-tiling list, in visit order. -/
theorem bp_esRunF {T : Type} (ops : TilingOps T) (xs ys : Int) :
    ∀ (fuel : Nat) (Jobs : List Job) (tiles : T) (first : Bool) (s : ESState T),
      bp (esRunF ops xs ys fuel Jobs tiles first s) =
        (leafTilingsF ops xs ys fuel Jobs tiles).foldl (pairStep ops) (bp s) := by
  intro fuel
  induction fuel with
  | zero =>
      intro Jobs tiles first s
      cases Jobs with
      | nil => exact bp_leafVisit ops tiles first s
      | cons a l => rfl
  | succ fuel ih =>
      intro Jobs tiles first s
      cases Jobs with
      | nil => exact bp_leafVisit ops tiles first s
      | cons a l =>
          simp only [esRunF, leafTilingsF]
          -- fold over the selections on both sides
          generalize (ops.removeInlets tiles (ops.minDimension (a :: l))) = tiles2
          induction selections (a :: l) generalizing s with
          | nil => rfl
          | cons sel rest ihsel =>
              simp only [List.foldl_cons, List.map_cons, List.flatten_cons,
                List.foldl_append]
              rw [ihsel, bp_selPass ops xs ys _ _ tiles2 first sel s
                (fun rj t b st => ih rj t b st)]

/-- Helper: processing one more leaf preserves the best-pair invariant. -/
theorem bpInv_pairStep {T : Type} (ops : TilingOps T) (proc : List T)
    (p : Option T × WithTop Int) (u : T) (h : bpInv ops proc p) :
    bpInv ops (proc ++ [u]) (pairStep ops p u) := by
  obtain ⟨p1, p2⟩ := p
  unfold pairStep
  rcases h with ⟨hp1, hp2, hproc⟩ | ⟨bt, hp1, hp2, hbtmem, hmin⟩
  · simp only at hp1 hp2
    subst hp1; subst hp2; subst hproc
    rw [if_pos (WithTop.coe_lt_top _)]
    right
    refine ⟨u, rfl, rfl, by simp, ?_⟩
    intro v hv
    simp only [List.nil_append, List.mem_singleton] at hv
    subst hv
    exact ⟨le_refl _, fun _ => le_refl _⟩
  · simp only at hp1 hp2
    subst hp1; subst hp2
    by_cases h1 : (ops.area u : WithTop Int) < (ops.area bt : WithTop Int)
    · rw [if_pos h1]
      right
      refine ⟨u, rfl, rfl, List.mem_append_right _ (by simp), ?_⟩
      intro v hv
      rcases List.mem_append.mp hv with hv | hv
      · have hbv := hmin v hv
        constructor
        · exact le_trans (le_of_lt h1) hbv.1
        · intro heq
          have hlt2 : (ops.area u : WithTop Int) < (ops.area v : WithTop Int) :=
            lt_of_lt_of_le h1 hbv.1
          rw [heq] at hlt2
          exact absurd hlt2 (lt_irrefl _)
      · simp only [List.mem_singleton] at hv
        subst hv
        exact ⟨le_refl _, fun _ => le_refl _⟩
    · by_cases h2 : (ops.area u : WithTop Int) = (ops.area bt : WithTop Int)
      · rw [if_neg h1, if_pos h2]
        have harea : ops.area u = ops.area bt := WithTop.coe_eq_coe.mp h2
        dsimp only
        by_cases h3 : ops.corners u < ops.corners bt
        · rw [if_pos h3]
          right
          refine ⟨u, rfl, rfl, List.mem_append_right _ (by simp), ?_⟩
          intro v hv
          rcases List.mem_append.mp hv with hv | hv
          · have hbv := hmin v hv
            constructor
            · rw [h2]; exact hbv.1
            · intro heq
              exact le_trans (le_of_lt h3) (hbv.2 (heq.trans harea))
          · simp only [List.mem_singleton] at hv
            subst hv
            exact ⟨le_refl _, fun _ => le_refl _⟩
        · rw [if_neg h3]
          right
          refine ⟨bt, rfl, rfl, List.mem_append_left _ hbtmem, ?_⟩
          intro v hv
          rcases List.mem_append.mp hv with hv | hv
          · exact hmin v hv
          · simp only [List.mem_singleton] at hv
            subst hv
            exact ⟨le_of_eq h2.symm, fun _ => le_of_not_lt h3⟩
      · rw [if_neg h1, if_neg h2]
        right
        refine ⟨bt, rfl, rfl, List.mem_append_left _ hbtmem, ?_⟩
        intro v hv
        rcases List.mem_append.mp hv with hv | hv
        · exact hmin v hv
        · simp only [List.mem_singleton] at hv
          rw [hv]
          have hgt : (ops.area bt : WithTop Int) < (ops.area u : WithTop Int) :=
            lt_of_le_of_ne (le_of_not_lt h1) (Ne.symm h2)
          exact ⟨le_of_lt hgt, fun heq => absurd (WithTop.coe_eq_coe.mpr heq) h2⟩

/-- Helper: folding `pairStep` over a leaf list preserves the invariant. -/
theorem bpInv_foldl {T : Type} (ops : TilingOps T) :
    ∀ (l : List T) (proc : List T) (p : Option T × WithTop Int),
      bpInv ops proc p → bpInv ops (proc ++ l) (l.foldl (pairStep ops) p) := by
  intro l
  induction l with
  | nil => intro proc p h; simpa using h
  | cons u rest ih =>
      intro proc p h
      simp only [List.foldl_cons]
      have h2 := ih (proc ++ [u]) (pairStep ops p u) (bpInv_pairStep ops proc p u h)
      simpa [List.append_assoc] using h2

/-- Claim C2: exhaustive optimality and determinism.  For every job
list and starting tiling, the completed run's `bestScore` is a lower
bound on the area of every tiling reachable by the search's placement
rules (`leafTilings`); among reachable tilings of the best tiling's area,
the best tiling's corner count is minimal; and when any tiling is
reachable the result is one of them, with `bestScore` equal to its area.
Determinism is immediate: the embedding is a pure function of its
inputs. -/
theorem c2_exhaustive_lexmin {T : Type} (ops : TilingOps T) (xs ys : Int)
    (Jobs : List Job) (tiles : T) :
    (∀ u ∈ leafTilings ops xs ys Jobs tiles,
      (esRun ops xs ys Jobs tiles).bestScore ≤ (ops.area u : WithTop Int)) ∧
    (∀ u ∈ leafTilings ops xs ys Jobs tiles, ∀ bt,
      (esRun ops xs ys Jobs tiles).bestTiling = some bt →
      ops.area u = ops.area bt → ops.corners bt ≤ ops.corners u) ∧
    (leafTilings ops xs ys Jobs tiles ≠ [] →
      ∃ bt, (esRun ops xs ys Jobs tiles).bestTiling = some bt ∧
        bt ∈ leafTilings ops xs ys Jobs tiles ∧
        (esRun ops xs ys Jobs tiles).bestScore = (ops.area bt : WithTop Int)) := by
  have hbp := bp_esRunF ops xs ys Jobs.length Jobs tiles true (initES T)
  have hinv := bpInv_foldl ops (leafTilingsF ops xs ys Jobs.length Jobs tiles) []
    (bp (initES T)) (Or.inl ⟨rfl, rfl, rfl⟩)
  rw [← hbp] at hinv
  simp only [List.nil_append] at hinv
  simp only [leafTilings, esRun]
  rcases hinv with ⟨h1, h2, h3⟩ | ⟨bt, hbt1, hbt2, hbtmem, hmin⟩
  · refine ⟨?_, ?_, ?_⟩
    · intro u hu
      rw [h3] at hu
      cases hu
    · intro u hu
      rw [h3] at hu
      cases hu
    · intro hne
      exact absurd h3 hne
  · refine ⟨?_, ?_, ?_⟩
    · intro u hu
      exact (hmin u hu).1
    · intro u hu bt2 hbt2eq heq
      have hsome : some bt = some bt2 := hbt1.symm.trans hbt2eq
      injection hsome with hbtbt
      subst hbtbt
      exact (hmin u hu).2 heq
    · intro _
      exact ⟨bt, hbt1, hbtmem, hbt2⟩

/-- Witness for C2: the one-job search reaches a non-empty leaf list
and returns one of its elements with matching score. -/
theorem c2_witness :
    leafTilings specOps 0 0 [wJob21] wPanel10 ≠ [] ∧
    (∃ bt, (esRun specOps 0 0 [wJob21] wPanel10).bestTiling = some bt ∧
      bt ∈ leafTilings specOps 0 0 [wJob21] wPanel10 ∧
      (esRun specOps 0 0 [wJob21] wPanel10).bestScore = (specOps.area bt : WithTop Int)) :=
  ⟨by decide, (c2_exhaustive_lexmin specOps 0 0 [wJob21] wPanel10).2.2 (by decide)⟩
